import Mathlib

/- Shallow embedding of the FLAC tag editor (src/main.py): metadata block
   reconciliation (BlocksWindow.saveBlocks), the multi-file tag merge and save
   (FLACTagEditor.showTags / saveFLAC), the padding advisory, and the cover
   picture consistency check and batch apply (CoverWindow). -/

/-- Multivalued marker used by the tag table, including the trailing space
(main.py lines 474 and 598). -/
def mvMarker : String := "≪Multivalued≫ "

/-- Rendering of the Python test v.startswith(marker) from main.py line 598,
as a character list match so that it evaluates inside the kernel. -/
def startsWithMV (v : String) : Bool := mvMarker.data.isPrefixOf v.data

/-- Metadata block as the blocks window sees it: the integer block code and
the serialized representation built at display time, str(vars(block)) or
str(block) for pictures (main.py lines 736 to 745). -/
structure MetaBlock where
  code : Nat
  data : String
deriving DecidableEq

/-- Digest of a serialized block (hash_data, main.py lines 1577 to 1585).
The source computes the SHA-256 hex digest of the UTF-8 bytes. The model
keeps the serialization itself as the digest value, which preserves the two
properties the program relies on: the digest is deterministic, and two
serializations collide only when they are equal. -/
def hash_data (d : String) : String := d

/-- Content hash of one block as shown in the Hash column of the blocks
table (main.py line 744). -/
def blockHash (b : MetaBlock) : String := hash_data b.data

/-- One reconciliation step of BlocksWindow.saveBlocks, main.py line 874:
next((block for block in bak if block.code == c and h == hash_data(...)), None).
The first backup block whose code and freshly recomputed hash both match is
returned; None when no block matches. -/
def findMatch (bak : List MetaBlock) (c : Nat) (h : String) : Option MetaBlock :=
  bak.find? (fun b => b.code == c && h == hash_data b.data)

/-- Index form of findMatch: the position inside the backup list of the block
that the Python expression at main.py line 874 returns. Python hands back the
first matching list element itself; the index makes the identity of that
element observable in a value semantics. -/
def findMatchIdx (bak : List MetaBlock) (c : Nat) (h : String) : Option Nat :=
  bak.findIdx? (fun b => b.code == c && h == hash_data b.data)

/-- Per-file body of BlocksWindow.saveBlocks, main.py lines 863 to 877: the
backup list is the snapshot of the current blocks, the block list is cleared,
and for every table row the first matching backup block, or None, is inserted
at the next position. The backup list is never mutated in the loop. -/
def reconcileFile (bak : List MetaBlock) (entries : List (Nat × String)) :
    List (Option MetaBlock) :=
  entries.map (fun e => findMatch bak e.1 e.2)

/-- Index-level view of reconcileFile: which backup position each table row
matched. -/
def reconcileIdx (bak : List MetaBlock) (entries : List (Nat × String)) :
    List (Option Nat) :=
  entries.map (fun e => findMatchIdx bak e.1 e.2)

/-- Whole-selection loop of BlocksWindow.saveBlocks, main.py lines 862 to 877:
every file in the selection has its block list rebuilt by reconcileFile and is
then saved unconditionally; there is no abort path and no report of an entry
that matched nothing. -/
def saveBlocksFiles (files : List (List MetaBlock)) (entries : List (Nat × String)) :
    List (List (Option MetaBlock)) :=
  files.map (fun bak => reconcileFile bak entries)

/-- Consuming reconciliation, written from the words of the spec (section 4.5
step 2: a linear scan with at most one match consumed per backup entry). It
removes the first matching block from the backup so that a later entry can
never take the same backup block again. Used only to compare the source
behavior against the claimed one. -/
def removeFirstMatch (bak : List MetaBlock) (c : Nat) (h : String) :
    Option (MetaBlock × List MetaBlock) :=
  match bak with
  | [] => none
  | b :: bs =>
    if b.code == c && h == hash_data b.data then
      some (b, bs)
    else
      match removeFirstMatch bs c h with
      | some (m, rest) => some (m, b :: rest)
      | none => none

/-- Spec-side consuming scan over all entries; fails when some entry has no
remaining match. -/
def reconcileConsuming : List MetaBlock → List (Nat × String) → Option (List MetaBlock)
  | _, [] => some []
  | bak, e :: es =>
    match removeFirstMatch bak e.1 e.2 with
    | some (m, rest) => (reconcileConsuming rest es).map (fun out => m :: out)
    | none => none

/-- Padding advisory raised after saving, main.py lines 882 to 889: the block
codes of the first file are read back and the warning fires exactly when the
last code is not 1 (PADDING). The source indexes position -1, so the list is
nonempty whenever the source does not crash. -/
def paddingAdvisory (codes : List Nat) : Bool :=
  !(codes.getLast? == some 1)

/- Tag model. A mutagen FLAC tag container is an ordered list of pairs of a
field name and one string value; a field with several values appears as
several pairs. The codec collaborator is external to src (spec section 6);
lookups here use exact key equality, which agrees with the source on every
claim input since no claim mixes letter cases of one key. -/

/-- Ordered tag dictionary of one file. -/
abbrev TagDict := List (String × String)

/-- All values stored for one field name, in order. -/
def tagGet (t : TagDict) (k : String) : List String :=
  (t.filter (fun p => p.1 == k)).map (fun p => p.2)

/-- Ordered list of field names of one file, one entry per stored pair, as
built by the comprehension at main.py line 438. -/
def fieldNames (t : TagDict) : List String := t.map (fun p => p.1)

/-- Value one file contributes to the merged row for a field, main.py
line 462: flac.tags.get(tag, [.. empty string ..])[0], the first stored value,
or the empty string when the field is absent. -/
def fileValue (t : TagDict) (tag : String) : String :=
  (tagGet t tag).headD ""

/-- Code point lexicographic comparison of character lists, the order Python
uses to compare strings. -/
def charListLt : List Char → List Char → Bool
  | _, [] => false
  | [], _ :: _ => true
  | a :: as, b :: bs => a.val < b.val || (a == b && charListLt as bs)

/-- Strict code point order on strings. -/
def strLt (a b : String) : Bool := charListLt a.data b.data

/-- Insertion step of the string sort used to model Python sorted. -/
def insertStr (s : String) : List String → List String
  | [] => [s]
  | t :: ts => if strLt t s then t :: insertStr s ts else s :: t :: ts

/-- Ascending code point sort of a string list, modelling Python sorted at
main.py line 470. -/
def sortStrings : List String → List String
  | [] => []
  | s :: ss => insertStr s (sortStrings ss)

/-- Merged display value of one tag row across a selection, main.py lines
457 to 474: collect every file contribution, reduce to the distinct set, show
the single value when the set is a singleton, and otherwise show the marker
followed by the sorted distinct values joined by a semicolon and space. -/
def mergedValue (files : List TagDict) (tag : String) : String :=
  let vals := files.map (fun t => fileValue t tag)
  let distinct := vals.dedup
  if distinct.length = 1 then
    distinct.headD ""
  else
    mvMarker ++ String.intercalate "; " (sortStrings distinct)

/-- Tag shape test of main.py line 441: every field name list equals the
first one. -/
def sameTagFields (ts : List (List String)) : Bool :=
  ts.all (fun l => decide (l = ts.headD []))

/-- Multi-file branch of FLACTagEditor.showTags, main.py lines 430 to 480:
when the ordered field name lists diverge the table is cleared and no merged
view is built (none); otherwise one row per field of the first file is built
with the merged display value. -/
def showTagsMulti (files : List TagDict) : Option (List (String × String)) :=
  let fieldsLists := files.map fieldNames
  if sameTagFields fieldsLists then
    some ((fieldsLists.headD []).map (fun tag => (tag, mergedValue files tag)))
  else
    none

/-- Snapshot lookup of FLACTagEditor.saveFLAC, main.py line 579: a field of
the table is recorded for a file exactly when flac.get(tag) is truthy, that
is, when the file stores at least one value for it; the recorded datum is the
full value list flac[tag]. -/
def snapshotGet (t : TagDict) (k : String) : Option (List String) :=
  let vs := tagGet t k
  if vs.isEmpty then none else some vs

/-- Python dict insertion: an existing key keeps its position and takes the
new value, a new key is appended. Models metadata_dict[field_name] = value at
main.py line 559. -/
def dictInsert (d : List (String × String)) (k v : String) : List (String × String) :=
  if k ∈ d.map Prod.fst then
    d.map (fun p => if p.1 == k then (k, v) else p)
  else
    d ++ [(k, v)]

/-- Collection of the table rows into the field name keyed mapping, main.py
lines 547 to 559; a later row with the same field name overwrites the value. -/
def metadataDict (rows : List (String × String)) : List (String × String) :=
  rows.foldl (fun d p => dictInsert d p.1 p.2) []

/-- Values written for one mapping entry, main.py lines 597 to 603: a value
still carrying the multivalued marker restores the snapshot values of the
file when they were recorded and writes nothing otherwise; any other value is
written as the single value of the field. -/
def resolveRow (orig : TagDict) (k v : String) : List String :=
  if startsWithMV v then (snapshotGet orig k).getD [] else [v]

/-- Tag list a file holds after FLACTagEditor.saveFLAC cleared it and wrote
the mapping entries in order, main.py lines 592 to 603. The mapping has
pairwise distinct keys, so each assignment is a plain append of the pairs of
that key. -/
def writeTags (orig : TagDict) (md : List (String × String)) : TagDict :=
  md.flatMap (fun p => (resolveRow orig p.1 p.2).map (fun s => (p.1, s)))

/-- Result of one file of the save loop of FLACTagEditor.saveFLAC: snapshot
from the pre-save tags, clear, then write every mapping entry. -/
def saveFLACFile (rows : List (String × String)) (t : TagDict) : TagDict :=
  writeTags t (metadataDict rows)

/- Cover picture model (CoverWindow). A picture block carries the picture
type, mime string, binary payload, the three numeric attributes, and the
description; any other metadata block only matters through being not a
picture. The mutagen calls clear_pictures, add_picture and pictures are
external codec operations: clear_pictures drops every block whose code is the
picture code regardless of picture type, add_picture appends, and pictures
lists the picture blocks in order. -/

/-- Embedded picture block. -/
structure Pic where
  ptype : Nat
  mime : String
  data : List Nat
  width : Option Int
  height : Option Int
  depth : Option Int
  desc : String
deriving DecidableEq

/-- Metadata block of a file as the cover window cares about it. -/
inductive CBlock where
  | picture (p : Pic)
  | other (code : Nat) (payload : String)
deriving DecidableEq

/-- FLAC.pictures of mutagen: the picture blocks of a file in order. -/
def picBlocks (f : List CBlock) : List Pic :=
  f.filterMap (fun b => match b with
    | .picture p => some p
    | .other _ _ => none)

/-- FLAC.clear_pictures of mutagen: every picture block is removed, whatever
its picture type; all the other blocks are kept in order. -/
def clearPictures (f : List CBlock) : List CBlock :=
  f.filter (fun b => match b with
    | .picture _ => false
    | .other _ _ => true)

/-- FLAC.add_picture of mutagen: the new picture block is appended. -/
def addPicture (f : List CBlock) (p : Pic) : List CBlock :=
  f ++ [CBlock.picture p]

/-- Front cover payloads of one file: the data of every picture block whose
type is 3, in order, as traversed at main.py lines 1326 to 1331. -/
def coverDatas (f : List CBlock) : List (List Nat) :=
  ((picBlocks f).filter (fun p => p.ptype == 3)).map (fun p => p.data)

/-- Front cover payloads of a whole selection in traversal order. -/
def allCoverData (files : List (List CBlock)) : List (List Nat) :=
  files.flatMap coverDatas

/-- Inner loop of CoverWindow.checkCoverConsistency over the pictures of one
file, main.py lines 1326 to 1331: the first front cover payload seen anywhere
is remembered, and a later front cover payload that differs makes the whole
check fail (none). -/
def scanPics (first : Option (List Nat)) : List Pic → Option (Option (List Nat))
  | [] => some first
  | p :: ps =>
    if p.ptype == 3 then
      match first with
      | none => scanPics (some p.data) ps
      | some d => if d == p.data then scanPics (some d) ps else none
    else
      scanPics first ps

/-- Outer loop of CoverWindow.checkCoverConsistency over the files, main.py
lines 1321 to 1335. -/
def scanFiles (first : Option (List Nat)) : List (List CBlock) → Bool
  | [] => true
  | f :: fs =>
    match scanPics first (picBlocks f) with
    | none => false
    | some next => scanFiles next fs

/-- CoverWindow.checkCoverConsistency, main.py lines 1311 to 1335. -/
def checkCoverConsistency (files : List (List CBlock)) : Bool :=
  scanFiles none files

/-- Multi-file branch of CoverWindow.saveTags, main.py lines 1394 to 1421:
one picture block with type 3, mime image/jpeg, the chosen payload, and the
dialog attributes is built once, and every file of the selection has its
picture blocks cleared, the new block appended, and is saved. -/
def coverSaveTags (files : List (List CBlock)) (payload : List Nat)
    (w h d : Option Int) (desc : String) : List (List CBlock) :=
  let pic : Pic := ⟨3, "image/jpeg", payload, w, h, d, desc⟩
  files.map (fun f => addPicture (clearPictures f) pic)

/- Helper lemmas about the reconciliation scan. -/

/-- The match test of main.py line 874 holds exactly for the block whose code
and serialization are the ones recorded in the table row. -/
theorem matchCond_iff (b : MetaBlock) (c : Nat) (h : String) :
    (b.code == c && h == hash_data b.data) = true ↔ b = MetaBlock.mk c h := by
  cases b with
  | mk bc bd =>
    simp only [hash_data, Bool.and_eq_true, beq_iff_eq, MetaBlock.mk.injEq]
    exact ⟨fun hp => ⟨hp.1, hp.2.symm⟩, fun hp => ⟨hp.1, hp.2.symm⟩⟩

/-- Unfolding step for the first match scan on a nonempty list. -/
theorem find?_match_cons (p : MetaBlock → Bool) (b : MetaBlock) (bs : List MetaBlock) :
    List.find? p (b :: bs) = if p b then some b else List.find? p bs := by
  cases hpb : p b <;> simp [List.find?, hpb]

/-- The scan of the backup finds the block with the recorded code and hash
exactly when the backup holds one. -/
theorem findMatch_eq (bak : List MetaBlock) (c : Nat) (h : String) :
    findMatch bak c h =
      if MetaBlock.mk c h ∈ bak then some (MetaBlock.mk c h) else none := by
  induction bak with
  | nil => simp [findMatch]
  | cons b bs ih =>
    rw [findMatch, find?_match_cons]
    by_cases hb : b = MetaBlock.mk c h
    · rw [if_pos ((matchCond_iff b c h).mpr hb), hb,
        if_pos (List.mem_cons_self _ _)]
    · rw [if_neg (fun hh => hb ((matchCond_iff b c h).mp hh))]
      rw [show (List.find? (fun b => b.code == c && h == hash_data b.data) bs)
            = findMatch bs c h from rfl, ih]
      by_cases hmem : MetaBlock.mk c h ∈ bs
      · rw [if_pos hmem, if_pos (List.mem_cons_of_mem b hmem)]
      · rw [if_neg hmem, if_neg (by
          intro hin
          rcases List.mem_cons.mp hin with heq | hin2
          · exact hb heq.symm
          · exact hmem hin2)]

/-- Dismantling a successful consuming step. -/
theorem removeFirstMatch_some {bak : List MetaBlock} {c : Nat} {h : String}
    {m : MetaBlock} {rest : List MetaBlock}
    (hrm : removeFirstMatch bak c h = some (m, rest)) :
    m = MetaBlock.mk c h ∧ MetaBlock.mk c h ∈ bak ∧ ∀ x ∈ rest, x ∈ bak := by
  induction bak generalizing rest with
  | nil => simp [removeFirstMatch] at hrm
  | cons b bs ih =>
    by_cases hc : (b.code == c && h == hash_data b.data) = true
    · rw [removeFirstMatch, if_pos hc] at hrm
      have hpair := Option.some.inj hrm
      obtain ⟨rfl, rfl⟩ : b = m ∧ bs = rest :=
        ⟨congrArg Prod.fst hpair, congrArg Prod.snd hpair⟩
      have hb := (matchCond_iff b c h).mp hc
      exact ⟨hb, hb ▸ List.mem_cons_self b bs,
        fun x hx => List.mem_cons_of_mem b hx⟩
    · rw [removeFirstMatch, if_neg hc] at hrm
      cases hsub : removeFirstMatch bs c h with
      | none => rw [hsub] at hrm; exact absurd hrm (by simp)
      | some pr =>
        obtain ⟨m2, r2⟩ := pr
        rw [hsub] at hrm
        have hpair := Option.some.inj hrm
        obtain ⟨rfl, rfl⟩ : m2 = m ∧ b :: r2 = rest :=
          ⟨congrArg Prod.fst hpair, congrArg Prod.snd hpair⟩
        obtain ⟨hm1, hm2, hm3⟩ := ih hsub
        refine ⟨hm1, List.mem_cons_of_mem b hm2, fun x hx => ?_⟩
        rcases List.mem_cons.mp hx with rfl | hx2
        · exact List.mem_cons_self _ _
        · exact List.mem_cons_of_mem b (hm3 x hx2)

/-- Core comparison between the source scan, which never consumes the backup,
and the consuming scan of the spec: whenever the consuming scan resolves every
entry, the source scan returns the same blocks. -/
theorem reconcileFile_of_consuming (es : List (Nat × String)) :
    ∀ (bakSub bak : List MetaBlock) (out : List MetaBlock),
      (∀ x ∈ bakSub, x ∈ bak) →
      reconcileConsuming bakSub es = some out →
      reconcileFile bak es = out.map some := by
  induction es with
  | nil =>
    intro bakSub bak out _ hc
    simp only [reconcileConsuming, Option.some.injEq] at hc
    rw [← hc]
    rfl
  | cons e es ih =>
    intro bakSub bak out hsub hc
    simp only [reconcileConsuming] at hc
    cases hrm : removeFirstMatch bakSub e.1 e.2 with
    | none => rw [hrm] at hc; exact absurd hc (by simp)
    | some pr =>
      obtain ⟨m, rest⟩ := pr
      rw [hrm] at hc
      obtain ⟨out2, hout2, hcons⟩ := Option.map_eq_some'.mp hc
      obtain ⟨hm1, hm2, hm3⟩ := removeFirstMatch_some hrm
      have hfind : findMatch bak e.1 e.2 = some (MetaBlock.mk e.1 e.2) := by
        rw [findMatch_eq, if_pos (hsub _ hm2)]
      have htail := ih rest bak out2 (fun x hx => hsub x (hm3 x hx)) hout2
      subst hm1
      rw [← hcons]
      simp only [reconcileFile, List.map_cons] at htail ⊢
      rw [hfind, htail]

/-- C1 (code bug): a reconciliation entry whose code and recorded hash match
no block in the backup of a file does not abort reconciliation. The matching
expression of main.py line 874 yields None, None is inserted at that position
of the rebuilt block list, and line 877 still saves the file; no code and
hash pair is ever reported. The input below is one file whose only block is a
STREAMINFO block while the edited order references a VORBIS COMMENT block
that the backup does not hold. -/
theorem saveBlocks_unresolved_persists_c1 :
    saveBlocksFiles [[MetaBlock.mk 0 "si"]] [(4, blockHash (MetaBlock.mk 4 "vc"))]
      = [[none]] := by decide

/-- C3 (counterexample): the backup is never consumed. With a backup holding
two identical PADDING blocks, at positions 0 and 1, and an edited order
listing that code and hash pair twice, both entries match the backup block at
position 0; the block already matched by the first entry is matched again by
the second one, and the block at position 1 is never taken. -/
theorem reconcile_rematch_counterexample_c3 :
    reconcileIdx [MetaBlock.mk 1 "pad", MetaBlock.mk 1 "pad"]
        [(1, blockHash (MetaBlock.mk 1 "pad")), (1, blockHash (MetaBlock.mk 1 "pad"))]
      = [some 0, some 0] := by decide

/-- C3 (amended): each entry takes the first backup block whose code and
freshly recomputed hash match, and the backup is not consumed, so a later
entry with the same pair matches the same first block again. Because blocks
with one pair are content equal, the produced block sequence is the one the
consuming scan of the spec would produce whenever that scan resolves every
entry. -/
theorem reconcile_first_match_c3 (bak : List MetaBlock)
    (es : List (Nat × String)) (out : List MetaBlock)
    (h : reconcileConsuming bak es = some out) :
    reconcileFile bak es = out.map some :=
  reconcileFile_of_consuming es bak bak out (fun _ hx => hx) h

/-- Witness for C3: a two block file reordered by a consuming scan that
resolves both entries gives the same answer as the source scan. -/
theorem reconcile_first_match_c3_witness :
    reconcileFile [MetaBlock.mk 0 "si", MetaBlock.mk 1 "pad"]
        [(1, blockHash (MetaBlock.mk 1 "pad")), (0, blockHash (MetaBlock.mk 0 "si"))]
      = [some (MetaBlock.mk 1 "pad"), some (MetaBlock.mk 0 "si")] :=
  reconcile_first_match_c3 _ _ [MetaBlock.mk 1 "pad", MetaBlock.mk 0 "si"] (by decide)

/-- C4 (confirmed): reordering a three block list of a STREAMINFO block, a
VORBIS COMMENT block and a PADDING block into STREAMINFO, PADDING, VORBIS
COMMENT and reconciling returns exactly the original three blocks, by
content, in the new order; no payload changes. -/
theorem reorder_roundtrip_c4 (s v p : MetaBlock)
    (hs : s.code = 0) (hv : v.code = 4) (hp : p.code = 1) :
    reconcileFile [s, v, p] [(0, blockHash s), (1, blockHash p), (4, blockHash v)]
      = [some s, some p, some v] := by
  simp [reconcileFile, findMatch, blockHash, hash_data, List.find?, hs, hv, hp]

/-- Witness for C4 at a concrete three block file. -/
theorem reorder_roundtrip_c4_witness :
    reconcileFile [MetaBlock.mk 0 "si", MetaBlock.mk 4 "vc", MetaBlock.mk 1 "pad"]
        [(0, blockHash (MetaBlock.mk 0 "si")), (1, blockHash (MetaBlock.mk 1 "pad")),
          (4, blockHash (MetaBlock.mk 4 "vc"))]
      = [some (MetaBlock.mk 0 "si"), some (MetaBlock.mk 1 "pad"),
          some (MetaBlock.mk 4 "vc")] :=
  reorder_roundtrip_c4 _ _ _ rfl rfl rfl

/-- C8 (counterexample): a re-read block code list with no PADDING block at
all, here STREAMINFO then VORBIS COMMENT, still raises the padding advisory,
because main.py line 885 only tests whether the last code is 1. The claim
would give no advisory here. -/
theorem paddingAdvisory_no_padding_c8 :
    paddingAdvisory [0, 4] = true ∧ (1 : Nat) ∉ ([0, 4] : List Nat) := by decide

/-- C8 (amended): after persisting, the block codes of the first file are
re-read and the advisory fires exactly when the last re-read code is not the
PADDING code; in particular a file with no PADDING block at all also gets the
advisory. Either way the operation is reported as completed. -/
theorem paddingAdvisory_iff_c8 (codes : List Nat) (h : codes ≠ []) :
    paddingAdvisory codes = true ↔ codes.getLast h ≠ 1 := by
  simp [paddingAdvisory, List.getLast?_eq_getLast codes h]

/-- Witness for C8: a PADDING block present but not last raises the advisory. -/
theorem paddingAdvisory_iff_c8_witness :
    paddingAdvisory [0, 1, 4] = true :=
  (paddingAdvisory_iff_c8 [0, 1, 4] (by decide)).mpr (by decide)

/- Helper lemmas about the tag dictionary model. -/

/-- Unfolding of tagGet on a nonempty tag list. -/
theorem tagGet_cons (p : String × String) (ps : TagDict) (k : String) :
    tagGet (p :: ps) k = if p.1 == k then p.2 :: tagGet ps k else tagGet ps k := by
  by_cases h : (p.1 == k) = true <;> simp [tagGet, List.filter_cons, h]

/-- Concatenation distributes over tagGet. -/
theorem tagGet_append (a b : TagDict) (k : String) :
    tagGet (a ++ b) k = tagGet a k ++ tagGet b k := by
  simp [tagGet, List.filter_append]

/-- Reading back the pairs written for the key itself. -/
theorem tagGet_pairs_self (k : String) (vs : List String) :
    tagGet (vs.map (fun s => (k, s))) k = vs := by
  induction vs with
  | nil => rfl
  | cons v vs ih => simp [tagGet_cons, ih]

/-- Pairs written for a different key are invisible. -/
theorem tagGet_pairs_ne {k0 k : String} (h : k0 ≠ k) (vs : List String) :
    tagGet (vs.map (fun s => (k0, s))) k = [] := by
  induction vs with
  | nil => rfl
  | cons v vs ih =>
    rw [List.map_cons, tagGet_cons, if_neg (by simpa using h), ih]

/-- The snapshot restore value is exactly the original value list of the
file: the field is recorded when it has values, and an unrecorded field
restores to the empty value list it had. -/
theorem snapshotGet_getD (t : TagDict) (k : String) :
    (snapshotGet t k).getD [] = tagGet t k := by
  cases hl : tagGet t k with
  | nil => simp [snapshotGet, hl]
  | cons a as => simp [snapshotGet, hl]

/-- Value list one mapping entry contributes for its own key. -/
theorem resolveRow_eq (orig : TagDict) (k v : String) :
    resolveRow orig k v = if startsWithMV v then tagGet orig k else [v] := by
  unfold resolveRow
  by_cases h : startsWithMV v = true <;> simp [h, snapshotGet_getD]

/-- Unfolding of writeTags on a nonempty mapping. -/
theorem writeTags_cons (orig : TagDict) (p : String × String)
    (md : List (String × String)) :
    writeTags orig (p :: md) =
      (resolveRow orig p.1 p.2).map (fun s => (p.1, s)) ++ writeTags orig md := by
  simp [writeTags]

/-- A key no mapping entry carries reads back empty. -/
theorem tagGet_writeTags_notmem (orig : TagDict) (md : List (String × String))
    (k : String) (h : k ∉ md.map Prod.fst) :
    tagGet (writeTags orig md) k = [] := by
  induction md with
  | nil => rfl
  | cons p md ih =>
    have hk : p.1 ≠ k := fun he => h (by simp [he])
    rw [writeTags_cons, tagGet_append, tagGet_pairs_ne hk,
      ih (fun hm => h (by simp [hm]))]
    rfl

/-- With pairwise distinct mapping keys, reading back a written key gives
exactly the contribution of its entry. -/
theorem tagGet_writeTags_mem (orig : TagDict) (md : List (String × String))
    (k v : String) (hnd : (md.map Prod.fst).Nodup) (hm : (k, v) ∈ md) :
    tagGet (writeTags orig md) k = resolveRow orig k v := by
  induction md with
  | nil => simp at hm
  | cons p md ih =>
    rw [writeTags_cons, tagGet_append]
    rcases List.mem_cons.mp hm with heq | hm2
    · rw [← heq]
      rw [tagGet_pairs_self, tagGet_writeTags_notmem orig md k (by
        have := (List.nodup_cons.mp hnd).1
        rw [← heq] at this
        simpa using this)]
      simp
    · have hk : k ∈ md.map Prod.fst :=
        List.mem_map.mpr ⟨(k, v), hm2, rfl⟩
      have hp1 : p.1 ≠ k := fun he => (List.nodup_cons.mp hnd).1 (he ▸ hk)
      rw [tagGet_pairs_ne hp1, ih (List.nodup_cons.mp hnd).2 hm2]
      simp

/-- Keys of the mapping after one dict insertion. -/
theorem keys_dictInsert (d : List (String × String)) (k v : String) :
    (dictInsert d k v).map Prod.fst =
      if k ∈ d.map Prod.fst then d.map Prod.fst else d.map Prod.fst ++ [k] := by
  unfold dictInsert
  by_cases h : k ∈ d.map Prod.fst
  · rw [if_pos h, if_pos h, List.map_map]
    apply List.map_congr_left
    intro p hp
    by_cases hpk : (p.1 == k) = true
    · simp only [Function.comp, hpk, if_true]
      exact (beq_iff_eq.mp hpk).symm
    · simp only [Function.comp, hpk, if_false]
      rfl
  · rw [if_neg h, if_neg h, List.map_append]
    rfl

/-- Dict insertion keeps the mapping keys pairwise distinct. -/
theorem nodupKeys_dictInsert (d : List (String × String)) (k v : String)
    (h : (d.map Prod.fst).Nodup) : ((dictInsert d k v).map Prod.fst).Nodup := by
  rw [keys_dictInsert]
  by_cases hc : k ∈ d.map Prod.fst
  · rw [if_pos hc]; exact h
  · rw [if_neg hc]
    refine List.Nodup.append h (List.nodup_singleton k) ?_
    intro x hx hxk
    rw [List.mem_singleton] at hxk
    exact hc (hxk ▸ hx)

/-- Folding the table rows from any accumulator with distinct keys keeps the
keys distinct. -/
theorem nodupKeys_foldl (rows : List (String × String)) :
    ∀ d : List (String × String), (d.map Prod.fst).Nodup →
      ((rows.foldl (fun d p => dictInsert d p.1 p.2) d).map Prod.fst).Nodup := by
  induction rows with
  | nil => intro d hd; simpa using hd
  | cons r rows ih =>
    intro d hd
    simp only [List.foldl]
    exact ih _ (nodupKeys_dictInsert d r.1 r.2 hd)

/-- The collected table mapping has pairwise distinct keys. -/
theorem nodupKeys_metadataDict (rows : List (String × String)) :
    ((metadataDict rows).map Prod.fst).Nodup :=
  nodupKeys_foldl rows [] (by simp)

/-- Inserting a pair makes it a member of the mapping. -/
theorem mem_dictInsert_self (d : List (String × String)) (k v : String) :
    (k, v) ∈ dictInsert d k v := by
  unfold dictInsert
  by_cases h : k ∈ d.map Prod.fst
  · rw [if_pos h]
    obtain ⟨p, hp, hpk⟩ := List.mem_map.mp h
    refine List.mem_map.mpr ⟨p, hp, ?_⟩
    rw [if_pos (beq_iff_eq.mpr hpk)]
  · rw [if_neg h]
    exact List.mem_append_right _ (by simp)

/-- Every key one dict insertion leaves in the mapping was already a key or
is the inserted one. -/
theorem keys_dictInsert_sub (d : List (String × String)) (k v x : String)
    (hx : x ∈ (dictInsert d k v).map Prod.fst) :
    x ∈ d.map Prod.fst ∨ x = k := by
  rw [keys_dictInsert] at hx
  by_cases h : k ∈ d.map Prod.fst
  · rw [if_pos h] at hx; exact Or.inl hx
  · rw [if_neg h] at hx
    rcases List.mem_append.mp hx with h1 | h2
    · exact Or.inl h1
    · exact Or.inr (List.mem_singleton.mp h2)

/-- Keys of the folded mapping come from the accumulator or the rows. -/
theorem keys_foldl_sub (rows : List (String × String)) :
    ∀ (d : List (String × String)) (x : String),
      x ∈ (rows.foldl (fun d p => dictInsert d p.1 p.2) d).map Prod.fst →
      x ∈ d.map Prod.fst ∨ x ∈ rows.map Prod.fst := by
  induction rows with
  | nil => intro d x hx; exact Or.inl (by simpa using hx)
  | cons r rows ih =>
    intro d x hx
    simp only [List.foldl] at hx
    rcases ih (dictInsert d r.1 r.2) x hx with h1 | h2
    · rcases keys_dictInsert_sub d r.1 r.2 x h1 with h3 | h4
      · exact Or.inl h3
      · exact Or.inr (by simp [h4])
    · exact Or.inr (by simp [h2])

/-- Every key of the collected mapping is a field name of some table row. -/
theorem keys_metadataDict_sub (rows : List (String × String)) (x : String)
    (hx : x ∈ (metadataDict rows).map Prod.fst) : x ∈ rows.map Prod.fst :=
  (keys_foldl_sub rows [] x hx).resolve_left (by simp)

/-- A nonempty list whose members are all one value reduces to that
singleton. -/
theorem dedup_of_all_eq : ∀ (l : List String) (a : String), l ≠ [] →
    (∀ x ∈ l, x = a) → l.dedup = [a]
  | [], _, hne, _ => absurd rfl hne
  | [x], a, _, hall => by rw [hall x (by simp)]; simp
  | x :: y :: ys, a, _, hall => by
    have hmem : x ∈ y :: ys := by
      rw [hall x (by simp), ← hall y (by simp)]
      exact List.mem_cons_self y ys
    rw [List.dedup_cons_of_mem hmem]
    exact dedup_of_all_eq (y :: ys) a (by simp)
      (fun z hz => hall z (List.mem_cons_of_mem x hz))

/-- A list whose distinct set is a singleton has pairwise equal members. -/
theorem eq_of_dedup_len1 {l : List String} (h : l.dedup.length = 1) :
    ∀ x ∈ l, ∀ y ∈ l, x = y := by
  obtain ⟨c, hc⟩ : ∃ c, l.dedup = [c] := by
    cases hd : l.dedup with
    | nil => rw [hd] at h; simp at h
    | cons a as =>
      cases as with
      | nil => exact ⟨a, rfl⟩
      | cons b bs => rw [hd] at h; simp at h
  intro x hx y hy
  have hx2 : x ∈ l.dedup := List.mem_dedup.mpr hx
  have hy2 : y ∈ l.dedup := List.mem_dedup.mpr hy
  rw [hc] at hx2 hy2
  rw [List.mem_singleton.mp hx2, List.mem_singleton.mp hy2]

/-- C5 (confirmed): the merged row value collects the first stored value of
the field from every file, with the empty string for an absent field; when
all the collected values agree, the row shows that single value, and
otherwise it shows the multivalued marker followed by the code point sorted
distinct values joined by a semicolon and space. -/
theorem merged_row_c5 (f : TagDict) (rest : List TagDict) (tag : String) :
    mergedValue (f :: rest) tag =
      if ((f :: rest).map (fun t => fileValue t tag)).all
          (fun v => v == fileValue f tag) then
        fileValue f tag
      else
        mvMarker ++ String.intercalate "; "
          (sortStrings ((f :: rest).map (fun t => fileValue t tag)).dedup) := by
  by_cases hall : ∀ x ∈ (f :: rest).map (fun t => fileValue t tag), x = fileValue f tag
  · have hcond : ((f :: rest).map (fun t => fileValue t tag)).all
        (fun v => v == fileValue f tag) = true :=
      List.all_eq_true.mpr (fun x hx => beq_iff_eq.mpr (hall x hx))
    rw [if_pos hcond]
    have hdedup := dedup_of_all_eq ((f :: rest).map (fun t => fileValue t tag))
      (fileValue f tag) (by simp) hall
    simp only [mergedValue]
    rw [hdedup]
    simp
  · have hcond : ¬ ((f :: rest).map (fun t => fileValue t tag)).all
        (fun v => v == fileValue f tag) = true := by
      intro htrue
      exact hall (fun x hx => beq_iff_eq.mp (List.all_eq_true.mp htrue x hx))
    rw [if_neg hcond]
    have hlen : ¬ ((f :: rest).map (fun t => fileValue t tag)).dedup.length = 1 := by
      intro h1
      apply hall
      intro x hx
      exact eq_of_dedup_len1 h1 x hx (fileValue f tag)
        (List.mem_map.mpr ⟨f, List.mem_cons_self f rest, rfl⟩)
    simp only [mergedValue]
    rw [if_neg hlen]

/-- C7 (confirmed): for a selection of at least two files the merged view is
built exactly when every file carries the same ordered field name list as the
first file; on any divergence, also a pure reordering of the same names, no
view and no partial merge is produced. -/
theorem tag_shape_c7 (f g : TagDict) (rest : List TagDict) :
    (showTagsMulti (f :: g :: rest)).isSome = true ↔
      ∀ t ∈ g :: rest, fieldNames t = fieldNames f := by
  unfold showTagsMulti
  by_cases hb : sameTagFields ((f :: g :: rest).map fieldNames) = true
  · rw [if_pos hb]
    simp only [Option.isSome_some, true_iff]
    intro t ht
    have hall := List.all_eq_true.mp hb (fieldNames t)
      (List.mem_map.mpr ⟨t, List.mem_cons_of_mem f ht, rfl⟩)
    have hd := of_decide_eq_true hall
    simpa using hd
  · rw [if_neg hb]
    simp only [Option.isSome_none]
    constructor
    · intro h; exact absurd h (by simp)
    · intro hforall
      exfalso
      apply hb
      apply List.all_eq_true.mpr
      intro l hl
      obtain ⟨t, ht, rfl⟩ := List.mem_map.mp hl
      apply decide_eq_true
      rcases List.mem_cons.mp ht with rfl | ht2
      · simp
      · simp [hforall t ht2]

/-- C6 (confirmed): at save time, a row whose value still carries the
multivalued marker restores, for every file, exactly the value list the file
held when the snapshot was taken, and any other row value is written as the
single value of that field, the same for every file of the selection. -/
theorem save_resolution_c6 (rows : List (String × String)) (t : TagDict)
    (k v : String) (hkv : (k, v) ∈ metadataDict rows) :
    tagGet (saveFLACFile rows t) k =
      if startsWithMV v then tagGet t k else [v] := by
  rw [show saveFLACFile rows t = writeTags t (metadataDict rows) from rfl,
    tagGet_writeTags_mem t _ k v (nodupKeys_metadataDict rows) hkv,
    resolveRow_eq]

/-- Witness for C6: an edited single value row is written to a file that held
another value before. -/
theorem save_resolution_c6_witness :
    tagGet (saveFLACFile [("TITLE", "New")] [("TITLE", "Old")]) "TITLE"
      = ["New"] := by
  rw [save_resolution_c6 [("TITLE", "New")] [("TITLE", "Old")] "TITLE" "New"
    (by decide)]
  decide

/-- C10 (counterexample): a successful save does not write every field name
present in the table. A table holding one row for field X whose value still
carries the multivalued marker, saved to a file that stores no value for X,
writes nothing for X although X is a collected field name of the table. -/
theorem save_table_counterexample_c10 :
    tagGet (saveFLACFile [("X", "≪Multivalued≫ A; B")] []) "X" = [] ∧
      "X" ∈ (metadataDict [("X", "≪Multivalued≫ A; B")]).map Prod.fst := by
  decide

/-- C10 (amended): a successful save first clears the whole tag list of every
selected file and then writes only field names present in the table, so a
field absent from the table is removed from every file even if never touched;
a marker row may leave its field absent from a file with no recorded
snapshot value. When several rows carry one field name, the value kept is the
one of the last such row, because the rows are collected into a field name
keyed mapping before writing. -/
theorem save_table_c10 (rows : List (String × String)) (t : TagDict)
    (k v : String) :
    (k ∉ rows.map Prod.fst → tagGet (saveFLACFile rows t) k = []) ∧
      (startsWithMV v = false →
        tagGet (saveFLACFile (rows ++ [(k, v)]) t) k = [v]) := by
  constructor
  · intro hk
    rw [show saveFLACFile rows t = writeTags t (metadataDict rows) from rfl]
    exact tagGet_writeTags_notmem t _ k
      (fun hm => hk (keys_metadataDict_sub rows k hm))
  · intro hv
    have hmd : metadataDict (rows ++ [(k, v)])
        = dictInsert (metadataDict rows) k v := by
      simp [metadataDict, List.foldl_append]
    have hmem : (k, v) ∈ metadataDict (rows ++ [(k, v)]) :=
      hmd ▸ mem_dictInsert_self (metadataDict rows) k v
    rw [show saveFLACFile (rows ++ [(k, v)]) t
        = writeTags t (metadataDict (rows ++ [(k, v)])) from rfl,
      tagGet_writeTags_mem t _ k v (nodupKeys_metadataDict _) hmem,
      resolveRow_eq, hv]
    simp

/-- Witness for C10: the second row for field A overwrites the first one, and
a field the table does not hold is removed. -/
theorem save_table_c10_witness :
    tagGet (saveFLACFile ([("A", "1")] ++ [("A", "2")]) [("B", "b")]) "A"
      = ["2"] :=
  (save_table_c10 [("A", "1")] [("B", "b")] "A" "2").2 (by decide)


/- Helper lemmas about the cover consistency scan. -/

/-- Characterization of the inner scan when a payload was already seen: it
survives exactly when every later front cover payload equals it, and the
remembered payload never changes. -/
theorem scanPics_some (d : List Nat) (ps : List Pic) :
    scanPics (some d) ps =
      if ((ps.filter (fun p => p.ptype == 3)).map (fun p => p.data)).all
          (fun e => e == d) then
        some (some d)
      else none := by
  induction ps with
  | nil => simp [scanPics]
  | cons p ps ih =>
    cases hp : p.ptype == 3 with
    | false =>
      have hstep : scanPics (some d) (p :: ps) = scanPics (some d) ps := by
        simp [scanPics, hp]
      rw [hstep, ih, List.filter_cons, hp]
      simp
    | true =>
      cases hd : d == p.data with
      | true =>
        have hstep : scanPics (some d) (p :: ps) = scanPics (some d) ps := by
          simp [scanPics, hp, hd]
        have hdd : (p.data == d) = true := beq_iff_eq.mpr (beq_iff_eq.mp hd).symm
        rw [hstep, ih, List.filter_cons, hp]
        simp only [if_true, eq_self_iff_true, List.map_cons, List.all_cons, hdd,
          Bool.true_and]
      | false =>
        have hstep : scanPics (some d) (p :: ps) = none := by
          simp [scanPics, hp, hd]
        have hdd : (p.data == d) = false := by
          rw [Bool.eq_false_iff]
          intro hh
          rw [Bool.eq_false_iff] at hd
          exact hd (beq_iff_eq.mpr (beq_iff_eq.mp hh).symm)
        rw [hstep, List.filter_cons, hp]
        simp only [if_true, eq_self_iff_true, List.map_cons, List.all_cons, hdd,
          Bool.false_and]
        simp

/-- Characterization of the inner scan before any payload was seen. -/
theorem scanPics_none (ps : List Pic) :
    scanPics none ps =
      match (ps.filter (fun p => p.ptype == 3)).map (fun p => p.data) with
      | [] => some none
      | e :: es => if es.all (fun x => x == e) then some (some e) else none := by
  induction ps with
  | nil => simp [scanPics]
  | cons p ps ih =>
    cases hp : p.ptype == 3 with
    | false =>
      have hstep : scanPics none (p :: ps) = scanPics none ps := by
        simp [scanPics, hp]
      rw [hstep, ih, List.filter_cons, hp]
      simp
    | true =>
      have hstep : scanPics none (p :: ps) = scanPics (some p.data) ps := by
        simp [scanPics, hp]
      rw [hstep, scanPics_some, List.filter_cons, hp]
      simp only [if_true, eq_self_iff_true, List.map_cons]

/-- The scan of one file with no front cover, seen from an empty state. -/
theorem scanPics_none_nil (ps : List Pic)
    (h : (ps.filter (fun p => p.ptype == 3)).map (fun p => p.data) = []) :
    scanPics none ps = some none := by
  rw [scanPics_none, h]

/-- The scan of one file whose front cover payloads agree. -/
theorem scanPics_none_cons_all (ps : List Pic) (e : List Nat) (es : List (List Nat))
    (hc : (ps.filter (fun p => p.ptype == 3)).map (fun p => p.data) = e :: es)
    (hall : es.all (fun x => x == e) = true) :
    scanPics none ps = some (some e) := by
  rw [scanPics_none, hc]
  simp [hall]

/-- The scan of one file holding two differing front cover payloads. -/
theorem scanPics_none_cons_bad (ps : List Pic) (e : List Nat) (es : List (List Nat))
    (hc : (ps.filter (fun p => p.ptype == 3)).map (fun p => p.data) = e :: es)
    (hall : es.all (fun x => x == e) = false) :
    scanPics none ps = none := by
  rw [scanPics_none, hc]
  simp [hall]

/-- Characterization of the outer scan with a remembered payload. -/
theorem scanFiles_some (d : List Nat) (fs : List (List CBlock)) :
    scanFiles (some d) fs = true ↔ ∀ e ∈ allCoverData fs, e = d := by
  induction fs with
  | nil => simp [scanFiles, allCoverData]
  | cons f fs ih =>
    have hcov : allCoverData (f :: fs) = coverDatas f ++ allCoverData fs := by
      simp [allCoverData]
    cases hall : (((picBlocks f).filter (fun p => p.ptype == 3)).map
        (fun p => p.data)).all (fun e => e == d) with
    | true =>
      have hs : scanPics (some d) (picBlocks f) = some (some d) := by
        rw [scanPics_some, if_pos hall]
      have hstep : scanFiles (some d) (f :: fs) = scanFiles (some d) fs := by
        rw [scanFiles, hs]
      rw [hstep, ih]
      constructor
      · intro h1 e he
        rw [hcov] at he
        rcases List.mem_append.mp he with he1 | he2
        · exact beq_iff_eq.mp (List.all_eq_true.mp hall e he1)
        · exact h1 e he2
      · intro h1 e he
        exact h1 e (by rw [hcov]; exact List.mem_append.mpr (Or.inr he))
    | false =>
      have hs : scanPics (some d) (picBlocks f) = none := by
        rw [scanPics_some, if_neg (by simp [hall])]
      have hstep : scanFiles (some d) (f :: fs) = false := by
        rw [scanFiles, hs]
      rw [hstep]
      constructor
      · intro h; exact absurd h (by simp)
      · intro h1
        exfalso
        obtain ⟨e, he, hne⟩ := List.all_eq_false.mp hall
        exact hne (beq_iff_eq.mpr
          (h1 e (by rw [hcov]; exact List.mem_append.mpr (Or.inl he))))

/-- C2 (amended): the cover consistency check is true exactly when all the
front cover payloads found anywhere in the selection are pairwise byte equal.
Every front cover picture of every file takes part, not only the first one,
and a file with no front cover contributes nothing and never makes the check
fail on its own. -/
theorem cover_consistency_c2 (files : List (List CBlock)) :
    checkCoverConsistency files = true ↔
      ∀ a ∈ allCoverData files, ∀ b ∈ allCoverData files, a = b := by
  induction files with
  | nil => simp [checkCoverConsistency, scanFiles, allCoverData]
  | cons f fs ih =>
    have hcov : allCoverData (f :: fs) = coverDatas f ++ allCoverData fs := by
      simp [allCoverData]
    cases hcd : ((picBlocks f).filter (fun p => p.ptype == 3)).map
        (fun p => p.data) with
    | nil =>
      have hs : scanPics none (picBlocks f) = some none :=
        scanPics_none_nil _ hcd
      have hstep : checkCoverConsistency (f :: fs) = checkCoverConsistency fs := by
        rw [checkCoverConsistency, scanFiles, hs]
        rfl
      rw [hstep, ih, hcov, show coverDatas f = [] from hcd]
      simp
    | cons e es =>
      have hcf : coverDatas f = e :: es := hcd
      cases hall : es.all (fun x => x == e) with
      | true =>
        have hs : scanPics none (picBlocks f) = some (some e) :=
          scanPics_none_cons_all _ _ _ hcd hall
        have hstep : checkCoverConsistency (f :: fs) = scanFiles (some e) fs := by
          rw [checkCoverConsistency, scanFiles, hs]
        rw [hstep, scanFiles_some]
        have hes : ∀ x ∈ es, x = e :=
          fun x hx => beq_iff_eq.mp (List.all_eq_true.mp hall x hx)
        constructor
        · intro h1 a ha b hb
          have hval : ∀ x, x ∈ allCoverData (f :: fs) → x = e := by
            intro x hx
            rw [hcov, hcf] at hx
            rcases List.mem_append.mp hx with hx1 | hx2
            · rcases List.mem_cons.mp hx1 with rfl | hx3
              · rfl
              · exact hes x hx3
            · exact h1 x hx2
          rw [hval a ha, hval b hb]
        · intro h1 x hx
          have hxm : x ∈ allCoverData (f :: fs) := by
            rw [hcov]; exact List.mem_append.mpr (Or.inr hx)
          have hem : e ∈ allCoverData (f :: fs) := by
            rw [hcov, hcf]
            exact List.mem_append.mpr (Or.inl (List.mem_cons_self e es))
          exact h1 x hxm e hem
      | false =>
        have hs : scanPics none (picBlocks f) = none :=
          scanPics_none_cons_bad _ _ _ hcd hall
        have hstep : checkCoverConsistency (f :: fs) = false := by
          rw [checkCoverConsistency, scanFiles, hs]
        rw [hstep]
        constructor
        · intro h; exact absurd h (by simp)
        · intro h1
          exfalso
          obtain ⟨x, hx, hne⟩ := List.all_eq_false.mp hall
          have hxm : x ∈ allCoverData (f :: fs) := by
            rw [hcov, hcf]
            exact List.mem_append.mpr (Or.inl (List.mem_cons_of_mem e hx))
          have hem : e ∈ allCoverData (f :: fs) := by
            rw [hcov, hcf]
            exact List.mem_append.mpr (Or.inl (List.mem_cons_self e es))
          exact hne (beq_iff_eq.mpr (h1 x hxm e hem))

/-- C2 (counterexample): a selection of one file with a front cover and one
file with no picture block at all passes the consistency check, while the
claim requires false whenever some file has no front cover. -/
theorem cover_missing_counterexample_c2 :
    checkCoverConsistency
        [[CBlock.picture ⟨3, "image/jpeg", [1], none, none, none, ""⟩], []] = true ∧
      coverDatas ([] : List CBlock) = [] := by decide

/-- Concatenation distributes over the picture block view. -/
theorem picBlocks_append (a b : List CBlock) :
    picBlocks (a ++ b) = picBlocks a ++ picBlocks b := by
  simp [picBlocks, List.filterMap_append]

/-- A list with its picture blocks cleared exposes no picture. -/
theorem picBlocks_clearPictures (f : List CBlock) :
    picBlocks (clearPictures f) = [] := by
  induction f with
  | nil => rfl
  | cons b bs ih => cases b <;> exact ih

/-- Clearing pictures twice equals clearing them once. -/
theorem clearPictures_clearPictures (f : List CBlock) :
    clearPictures (clearPictures f) = clearPictures f := by
  induction f with
  | nil => rfl
  | cons b bs ih =>
    cases b with
    | picture p => exact ih
    | other c pl =>
      show CBlock.other c pl :: clearPictures (clearPictures bs)
          = CBlock.other c pl :: clearPictures bs
      exact congrArg (List.cons (CBlock.other c pl)) ih

/-- C9 (counterexample): applying a new front cover to a file that carries a
picture block of a non cover type, here type 4, removes that block as well,
because the codec call clears every picture block whatever its type; the
claim requires non cover picture blocks to stay unchanged. -/
theorem cover_clears_all_counterexample_c9 :
    coverSaveTags
        [[CBlock.other 0 "si",
          CBlock.picture ⟨4, "image/png", [9], none, none, none, "back"⟩]]
        [1] none none none ""
      = [[CBlock.other 0 "si",
          CBlock.picture ⟨3, "image/jpeg", [1], none, none, none, ""⟩]] := by
  decide

/-- C9 (amended): applying a picture to a selection removes every existing
picture block of every file, whatever its picture type, leaves every non
picture block unchanged in order, and appends exactly one new front cover
picture block with the given payload, the fixed mime image/jpeg, the given
dimensions, color depth and description, built once and therefore identical
on every file of the selection. -/
theorem cover_apply_c9 (files : List (List CBlock)) (payload : List Nat)
    (w h d : Option Int) (desc : String) (f : List CBlock) :
    picBlocks (addPicture (clearPictures f) ⟨3, "image/jpeg", payload, w, h, d, desc⟩)
        = [⟨3, "image/jpeg", payload, w, h, d, desc⟩] ∧
      clearPictures (addPicture (clearPictures f)
          ⟨3, "image/jpeg", payload, w, h, d, desc⟩)
        = clearPictures f ∧
      coverSaveTags files payload w h d desc
        = files.map (fun g => addPicture (clearPictures g)
            ⟨3, "image/jpeg", payload, w, h, d, desc⟩) := by
  refine ⟨?_, ?_, rfl⟩
  · rw [addPicture, picBlocks_append, picBlocks_clearPictures]
    rfl
  · rw [addPicture]
    simp only [clearPictures, List.filter_append]
    rw [show List.filter (fun b => match b with
        | CBlock.picture _ => false
        | CBlock.other _ _ => true)
        [CBlock.picture ⟨3, "image/jpeg", payload, w, h, d, desc⟩] = [] from rfl]
    rw [List.append_nil]
    exact clearPictures_clearPictures f
